import Mathlib

/-!
# Verification of the PII-to-region mapping core

Shallow embedding of the PII detection/redaction core of this repository:

* `Octopii/octopii.py` — `normalize_text`, the five-strategy bounding-box
  cascade `find_precise_bbox_for_pii`, the post-cascade global area check of
  `search_pii`, and the plain-text offset resolver.
* `Redactopii/core/redaction_engine.py` — `_calculate_precise_bbox` and the
  text-masking loop of `process_octopii_report`.
* `Redactopii/redactors/text_redactor.py` — `TextRedactor.redact`.

Strings are modelled as lists of Unicode code points (`List Nat`); Python's
`str.lower` is modelled at the ASCII level (the only case folding relevant to
the PII alphabets handled by the code).  Pixel coordinates are `Int`, as in
the source (Python ints; OCR values are cast with `int(...)`).  The one float
in the source (`char_width = widths[i] / max(1, len(tok))` in strategy 5) is
modelled by exact rational arithmetic with Python's `int(...)` truncation
toward zero; all concrete inputs used below make that computation exact in
binary floating point, so model and source agree on them.
-/

namespace PIIRedact

/-- Convert a Lean string literal to the code-point list model. -/
def codes (s : String) : List Nat := s.data.map Char.toNat

/-! ## Text Normalizer (`octopii.py::normalize_text`, lines 156-160)

`normalize_text` is `s.lower().replace(' ', '').replace('-', '')
.replace('(', '').replace(')', '').replace(':', '').replace('+', '')`,
with `""` for falsy input.  Sequential `replace(c, '')` calls delete every
occurrence of each listed character, i.e. filter them all out. -/

/-- ASCII lower-casing of one code point (model of `str.lower` per character:
codes 65-90 map to 97-122, everything else is unchanged). -/
def lowerCode (c : Nat) : Nat := if 65 ≤ c ∧ c ≤ 90 then c + 32 else c

/-- The six characters `normalize_text` strips: space, hyphen, parentheses,
colon, plus. -/
def isSepCode (c : Nat) : Bool :=
  c == 32 || c == 45 || c == 40 || c == 41 || c == 58 || c == 43

/-- `octopii.py::normalize_text`: lower-case, then delete separators. -/
def normalize_text (s : List Nat) : List Nat :=
  (s.map lowerCode).filter (fun c => !isSepCode c)

theorem lowerCode_idem (c : Nat) : lowerCode (lowerCode c) = lowerCode c := by
  unfold lowerCode
  split
  · rename_i h
    have : ¬ (65 ≤ c + 32 ∧ c + 32 ≤ 90) := by omega
    simp only [if_neg this]
  · rfl

theorem mem_normalize_fixed {s : List Nat} {c : Nat} (h : c ∈ normalize_text s) :
    lowerCode c = c ∧ isSepCode c = false := by
  unfold normalize_text at h
  have h1 := List.mem_filter.mp h
  obtain ⟨c0, _, rfl⟩ := List.mem_map.mp h1.1
  refine ⟨lowerCode_idem c0, ?_⟩
  simpa using h1.2

theorem normalize_of_fixed {s : List Nat}
    (h : ∀ c ∈ s, lowerCode c = c ∧ isSepCode c = false) :
    normalize_text s = s := by
  unfold normalize_text
  induction s with
  | nil => rfl
  | cons a l ih =>
      have ha := h a (List.mem_cons_self a l)
      simp only [List.map_cons, List.filter_cons, ha.1, ha.2, Bool.not_false, if_pos rfl]
      have := ih (fun c hc => h c (List.mem_cons_of_mem a hc))
      simpa using this

/-- Length can only shrink under normalization. -/
theorem normalize_length_le (s : List Nat) :
    (normalize_text s).length ≤ s.length := by
  unfold normalize_text
  calc ((s.map lowerCode).filter _).length ≤ (s.map lowerCode).length :=
        List.length_filter_le _ _
    _ = s.length := List.length_map _ _

/-- C8: the normalizer is idempotent, and empty input yields empty output. -/
theorem normalize_text_idem_and_empty :
    (∀ s : List Nat, normalize_text (normalize_text s) = normalize_text s) ∧
    normalize_text [] = [] := by
  constructor
  · intro s
    exact normalize_of_fixed (fun c hc => mem_normalize_fixed hc)
  · rfl

/-! ## Offset Resolver (`octopii.py::search_pii`, lines 517-524, plain-text
branch)

```python
norm_text = normalize_text(text)
for pii in ...:
    norm_pii = normalize_text(pii)
    start = norm_text.find(norm_pii)
    if start != -1:
        pii_locations[pii] = {"start": start, "end": start + len(pii)}
```
-/

/-- Half-open character span; field `stop` stands for the source's `end`
(a Lean keyword). -/
structure OffsetSpan where
  start : Nat
  stop : Nat
deriving DecidableEq, Repr

/-- Python `hay.find(needle)`: index of the first occurrence, `none` for -1.
Python scans every start position 0..len(hay) and returns the first where the
needle matches; for an empty needle this is 0. -/
def firstOccur (hay needle : List Nat) : Option Nat :=
  (List.range (hay.length + 1)).find? (fun i => needle.isPrefixOf (hay.drop i))

/-- The plain-text location mapping for one PII value. -/
def resolve_offset (text pii : List Nat) : Option OffsetSpan :=
  match firstOccur (normalize_text text) (normalize_text pii) with
  | none => none
  | some s => some ⟨s, s + pii.length⟩

/-- Python slice `text[start:end]`. -/
def sliceStr (text : List Nat) (s e : Nat) : List Nat :=
  (text.drop s).take (e - s)

theorem firstOccur_bound {hay needle : List Nat} {s : Nat}
    (h : firstOccur hay needle = some s) :
    s + needle.length ≤ hay.length := by
  unfold firstOccur at h
  have hmem := List.mem_of_find?_eq_some h
  have hs : s < hay.length + 1 := List.mem_range.mp hmem
  have hp := List.find?_some h
  have hpre : needle <+: hay.drop s := List.isPrefixOf_iff_prefix.mp hp
  have hlen := hpre.length_le
  rw [List.length_drop] at hlen
  omega

/-- Amended C4: a recorded span has `0 ≤ start < stop`, and `stop ≤ len(text)`
holds whenever normalization removed no character from the PII value (the
recorded `start` indexes the normalized text, while `stop - start` is the raw
value's length, so a value shortened by normalization can push `stop` past the
end of the document). -/
theorem resolve_offset_span_valid (text pii : List Nat) (sp : OffsetSpan)
    (hres : resolve_offset text pii = some sp)
    (hne : pii ≠ [])
    (hpres : (normalize_text pii).length = pii.length) :
    0 ≤ sp.start ∧ sp.start < sp.stop ∧ sp.stop ≤ text.length := by
  unfold resolve_offset at hres
  cases hfo : firstOccur (normalize_text text) (normalize_text pii) with
  | none => rw [hfo] at hres; exact absurd hres (by simp)
  | some s =>
      rw [hfo] at hres
      have hsp : sp = ⟨s, s + pii.length⟩ := by
        simpa using hres.symm
      subst hsp
      have hb := firstOccur_bound hfo
      have hlen := normalize_length_le text
      have hpos : 0 < pii.length := List.length_pos.mpr hne
      refine ⟨Nat.zero_le _, by simpa using hpos, ?_⟩
      simp only
      omega

/-- Witness for `resolve_offset_span_valid`: the value `"12"` in text
`"ab12"` resolves to span `{2,4}`, which is within bounds. -/
theorem resolve_offset_span_valid_witness :
    0 ≤ (2 : Nat) ∧ 2 < 4 ∧ 4 ≤ (codes "ab12").length :=
  resolve_offset_span_valid (codes "ab12") (codes "12") ⟨2, 4⟩
    (by decide) (by decide) (by decide)

/-- Counterexample to C4 as stated: for text `"ab12"` and PII value `"1-2"`
the resolver records span `{2,5}`, whose `stop` exceeds the text length 4
(normalization dropped the hyphen, but the span length is the raw value's). -/
theorem resolve_offset_span_invalid_cex :
    resolve_offset (codes "ab12") (codes "1-2") = some ⟨2, 5⟩ ∧
    ¬ (5 ≤ (codes "ab12").length) := by
  decide

/-- Amended C3: for text `"contact: a@b.com here"` and value `"a@b.com"`,
the resolver returns span `{7,14}` (the start indexes the *normalized* text,
in which `": "` has been removed), and slicing the original text there yields
`": a@b.c"` — a string of the value's length but displaced left by two. -/
theorem offset_roundtrip_amended :
    resolve_offset (codes "contact: a@b.com here") (codes "a@b.com") =
      some ⟨7, 14⟩ ∧
    sliceStr (codes "contact: a@b.com here") 7 14 = codes ": a@b.c" ∧
    (sliceStr (codes "contact: a@b.com here") 7 14).length =
      (codes "a@b.com").length := by
  decide

/-- Counterexample to C3 as stated: the resolver does not return `{9,16}`,
and slicing at the span it does return does not give back `"a@b.com"`. -/
theorem offset_roundtrip_cex :
    resolve_offset (codes "contact: a@b.com here") (codes "a@b.com") ≠
      some ⟨9, 16⟩ ∧
    sliceStr (codes "contact: a@b.com here") 7 14 ≠ codes "a@b.com" := by
  decide

/-! ## Bounding-box clamp
(`redaction_engine.py::RedactionEngine._calculate_precise_bbox`, lines 74-106)

```python
if w <= 0 or h <= 0: return None
padding = 10
x = max(0, min(x - padding, img_width - 1))
y = max(0, min(y - padding, img_height - 1))
w = min(w + 2*padding, img_width - x)
h = min(h + 2*padding, img_height - y)
if w <= 0 or h <= 0: return None
return {"x": x, "y": y, "width": w, "height": h}
```
-/

/-- A pixel rectangle; also used for the `location` dicts fed to the clamp. -/
structure BBox where
  x : Int
  y : Int
  width : Int
  height : Int
deriving DecidableEq, Repr

/-- `RedactionEngine._calculate_precise_bbox` (image shape is `(H, W)`). -/
def calculate_precise_bbox (loc : BBox) (imgHeight imgWidth : Int) :
    Option BBox :=
  if loc.width ≤ 0 ∨ loc.height ≤ 0 then none
  else
    let x := max 0 (min (loc.x - 10) (imgWidth - 1))
    let y := max 0 (min (loc.y - 10) (imgHeight - 1))
    let w := min (loc.width + 2 * 10) (imgWidth - x)
    let h := min (loc.height + 2 * 10) (imgHeight - y)
    if w ≤ 0 ∨ h ≤ 0 then none
    else some ⟨x, y, w, h⟩

/-- C10: any box the clamp returns lies inside the image and has positive
area, so `img[y:y+h, x:x+w]` stays in bounds and is non-empty. -/
theorem calculate_precise_bbox_safe (loc : BBox) (H W : Int)
    (hH : 1 ≤ H) (hW : 1 ≤ W)
    (hw : 0 < loc.width) (hh : 0 < loc.height)
    (b : BBox) (hb : calculate_precise_bbox loc H W = some b) :
    0 ≤ b.x ∧ 0 ≤ b.y ∧ b.x + b.width ≤ W ∧ b.y + b.height ≤ H ∧
    0 < b.width ∧ 0 < b.height := by
  simp only [calculate_precise_bbox] at hb
  rw [if_neg (by omega : ¬(loc.width ≤ 0 ∨ loc.height ≤ 0))] at hb
  split at hb
  · exact absurd hb (by simp)
  · rename_i hcond
    injection hb with hb
    subst hb
    refine ⟨?_, ?_, ?_, ?_, ?_, ?_⟩ <;> simp only at hcond ⊢ <;> omega

/-- Witness for `calculate_precise_bbox_safe`: a 40x20 location at (50,50)
in an 800x600 image clamps to a box satisfying all the bounds. -/
theorem calculate_precise_bbox_safe_witness :
    0 ≤ (40 : Int) ∧ 0 ≤ (40 : Int) ∧ 40 + 60 ≤ (800 : Int) ∧
    40 + 40 ≤ (600 : Int) ∧ 0 < (60 : Int) ∧ 0 < (40 : Int) :=
  calculate_precise_bbox_safe ⟨50, 50, 40, 20⟩ 600 800
    (by decide) (by decide) (by decide) (by decide)
    ⟨40, 40, 60, 40⟩ (by decide)

/-! ## Text redaction
(`redaction_engine.py::process_octopii_report`, text branch, lines 306-333,
and `text_redactor.py::TextRedactor.redact`, lines 16-39)

Both sort the positioned entities by `start_pos` descending (Python's stable
`sorted(..., reverse=True)`) and rebuild the text as
`text[:start] + mask + text[end:]`; the engine masks with
`max(1, end_pos - start_pos)` repeated mask characters, `TextRedactor` with
`len(entity.value)` of them. -/

/-- A positioned PII entity; `stopPos` stands for the source's `end_pos`. -/
structure Entity where
  value : List Nat
  startPos : Nat
  stopPos : Nat
deriving DecidableEq, Repr

/-- Python's stable `sorted(entities, key=lambda x: x.start_pos,
reverse=True)`. -/
def sortByStartDesc (es : List Entity) : List Entity :=
  es.mergeSort (fun a b => b.startPos ≤ a.startPos)

/-- One engine masking step:
`text[:start] + mask_char * max(1, end - start) + text[end:]`. -/
def maskSpan (maskChar : Nat) (t : List Nat) (s e : Nat) : List Nat :=
  t.take s ++ List.replicate (max 1 (e - s)) maskChar ++ t.drop e

/-- The text branch of `process_octopii_report`: positioned entities are
processed in descending `start_pos` order. -/
def engineRedactText (maskChar : Nat) (text : List Nat) (es : List Entity) :
    List Nat :=
  (sortByStartDesc es).foldl
    (fun t ent => maskSpan maskChar t ent.startPos ent.stopPos) text

theorem maskSpan_length {t : List Nat} {s e : Nat} (m : Nat)
    (h1 : s < e) (h2 : e ≤ t.length) :
    (maskSpan m t s e).length = t.length := by
  unfold maskSpan
  simp only [List.length_append, List.length_take, List.length_replicate,
    List.length_drop]
  omega

theorem maskSpan_getD {t : List Nat} {s e : Nat} (m : Nat)
    (h1 : s < e) (h2 : e ≤ t.length) (i : Nat) (hi : i < t.length) :
    (maskSpan m t s e).getD i 0 =
      if s ≤ i ∧ i < e then m else t.getD i 0 := by
  unfold maskSpan
  have hts : (t.take s).length = s := by
    rw [List.length_take]; omega
  have hmax : max 1 (e - s) = e - s := by omega
  rcases Nat.lt_or_ge i s with hlt | hge
  · rw [if_neg (by omega)]
    rw [List.append_assoc, List.getD_eq_getElem?_getD,
      List.getElem?_append_left (by omega), List.getElem?_take,
      if_pos hlt, ← List.getD_eq_getElem?_getD]
  · rcases Nat.lt_or_ge i e with hie | hee
    · rw [if_pos ⟨hge, hie⟩]
      rw [List.append_assoc, List.getD_eq_getElem?_getD,
        List.getElem?_append_right (by omega), hts,
        List.getElem?_append_left (by simp only [List.length_replicate]; omega),
        List.getElem?_replicate, if_pos (by omega)]
      rfl
    · rw [if_neg (by omega)]
      rw [List.append_assoc, List.getD_eq_getElem?_getD,
        List.getElem?_append_right (by omega), hts,
        List.getElem?_append_right
          (by simp only [List.length_replicate]; omega),
        List.length_replicate, List.getElem?_drop,
        List.getD_eq_getElem?_getD]
      have hidx : e + (i - s - max 1 (e - s)) = i := by omega
      rw [hidx]

theorem foldl_maskSpan_spec (m : Nat) :
    ∀ (es : List Entity) (t : List Nat),
      (∀ e ∈ es, e.startPos < e.stopPos ∧ e.stopPos ≤ t.length) →
      ((es.foldl (fun t ent => maskSpan m t ent.startPos ent.stopPos)
          t).length = t.length ∧
       ∀ i < t.length,
         (es.foldl (fun t ent => maskSpan m t ent.startPos ent.stopPos)
            t).getD i 0 =
           if ∃ e ∈ es, e.startPos ≤ i ∧ i < e.stopPos then m
           else t.getD i 0)
  | [], t, _ => by simp
  | a :: l, t, hval => by
      have ha := hval a (List.mem_cons_self a l)
      have hlen1 : (maskSpan m t a.startPos a.stopPos).length = t.length :=
        maskSpan_length m ha.1 ha.2
      have hrec := foldl_maskSpan_spec m l (maskSpan m t a.startPos a.stopPos)
        (fun e he => by
          rw [hlen1]; exact hval e (List.mem_cons_of_mem a he))
      simp only [List.foldl_cons]
      refine ⟨by rw [hrec.1, hlen1], ?_⟩
      intro i hi
      rw [hrec.2 i (by omega)]
      by_cases hl : ∃ e ∈ l, e.startPos ≤ i ∧ i < e.stopPos
      · rw [if_pos hl, if_pos ⟨_, List.mem_cons_of_mem a hl.choose_spec.1,
          hl.choose_spec.2⟩]
      · rw [if_neg hl, maskSpan_getD m ha.1 ha.2 i hi]
        by_cases hai : a.startPos ≤ i ∧ i < a.stopPos
        · rw [if_pos hai, if_pos ⟨a, List.mem_cons_self a l, hai⟩]
        · rw [if_neg hai, if_neg (by
            rintro ⟨e, he, hei⟩
            rcases List.mem_cons.mp he with rfl | he'
            · exact hai hei
            · exact hl ⟨e, he', hei⟩)]

/-- C7: for pairwise non-overlapping in-bounds spans, the engine's text
applicator replaces exactly each span's character range with the repeated
mask character and preserves every character outside all spans (descending
start order makes every intermediate splice hit the intended offsets). -/
theorem engineRedactText_spec (maskChar : Nat) (text : List Nat)
    (es : List Entity)
    (hval : ∀ e ∈ es, e.startPos < e.stopPos ∧ e.stopPos ≤ text.length)
    (hdisj : es.Pairwise
      (fun a b => a.stopPos ≤ b.startPos ∨ b.stopPos ≤ a.startPos)) :
    (engineRedactText maskChar text es).length = text.length ∧
    ∀ i < text.length,
      (engineRedactText maskChar text es).getD i 0 =
        if ∃ e ∈ es, e.startPos ≤ i ∧ i < e.stopPos then maskChar
        else text.getD i 0 := by
  have hval' : ∀ e ∈ sortByStartDesc es,
      e.startPos < e.stopPos ∧ e.stopPos ≤ text.length := fun e he =>
    hval e (List.mem_mergeSort.mp he)
  have h := foldl_maskSpan_spec maskChar (sortByStartDesc es) text hval'
  unfold engineRedactText
  refine ⟨h.1, fun i hi => ?_⟩
  rw [h.2 i hi]
  congr 1
  simp only [eq_iff_iff]
  constructor
  · rintro ⟨e, he, hei⟩
    exact ⟨e, List.mem_mergeSort.mp he, hei⟩
  · rintro ⟨e, he, hei⟩
    exact ⟨e, List.mem_mergeSort.mpr he, hei⟩

/-- Witness for `engineRedactText_spec`: masking spans {0,5} and {6,11} of
`"hello world"`. -/
theorem engineRedactText_spec_witness :
    (engineRedactText 88 (codes "hello world")
      [⟨codes "hello", 0, 5⟩, ⟨codes "world", 6, 11⟩]).length =
      (codes "hello world").length ∧
    ∀ i < (codes "hello world").length,
      (engineRedactText 88 (codes "hello world")
        [⟨codes "hello", 0, 5⟩, ⟨codes "world", 6, 11⟩]).getD i 0 =
        if ∃ e ∈ [(⟨codes "hello", 0, 5⟩ : Entity), ⟨codes "world", 6, 11⟩],
            e.startPos ≤ i ∧ i < e.stopPos then 88
        else (codes "hello world").getD i 0 :=
  engineRedactText_spec 88 (codes "hello world")
    [⟨codes "hello", 0, 5⟩, ⟨codes "world", 6, 11⟩]
    (by decide) (by simp)

/-! ## TextRedactor (`text_redactor.py::TextRedactor.redact`)

Returns the redacted text together with per-entity `RedactionResult`
records; each record carries `timestamp=datetime.now().isoformat()`.  The
mask here is `mask_char * len(entity.value)`. -/

/-- One entry of the `results` list built by `TextRedactor.redact`. -/
structure RedactionResult where
  value : List Nat
  redactedValue : List Nat
  timestamp : List Nat
  success : Bool
deriving DecidableEq, Repr

/-- One iteration of the `for entity in sorted_entities` loop. -/
def redactStep (now : List Nat) (maskChar : Nat)
    (acc : List Nat × List RedactionResult) (ent : Entity) :
    List Nat × List RedactionResult :=
  let masked := List.replicate ent.value.length maskChar
  (acc.1.take ent.startPos ++ masked ++ acc.1.drop ent.stopPos,
   acc.2 ++ [⟨ent.value, masked, now, true⟩])

/-- `TextRedactor.redact`: `now` is the wall-clock reading used for the
result records (the only run-dependent input). -/
def textRedactorRedact (now : List Nat) (maskChar : Nat) (text : List Nat)
    (es : List Entity) : List Nat × List RedactionResult :=
  (sortByStartDesc es).foldl (redactStep now maskChar) (text, [])

theorem foldl_redactStep_fst (n1 n2 : List Nat) (m : Nat) :
    ∀ (l : List Entity) (t : List Nat) (r1 r2 : List RedactionResult),
      (l.foldl (redactStep n1 m) (t, r1)).1 =
      (l.foldl (redactStep n2 m) (t, r2)).1
  | [], t, r1, r2 => rfl
  | a :: l, t, r1, r2 => by
      simp only [List.foldl_cons, redactStep]
      exact foldl_redactStep_fst n1 n2 m l _ _ _

/-- C9: the redacted text is determined by the text, the entities and the
mask character alone — runs at different wall-clock times (which differ only
in the timestamps recorded in the result list) produce identical sanitized
content. -/
theorem textRedactor_deterministic (now1 now2 : List Nat) (maskChar : Nat)
    (text : List Nat) (es : List Entity) :
    (textRedactorRedact now1 maskChar text es).1 =
    (textRedactorRedact now2 maskChar text es).1 :=
  foldl_redactStep_fst now1 now2 maskChar (sortByStartDesc es) text [] []

/-! ## Region Resolver (`octopii.py::find_precise_bbox_for_pii`,
lines 170-489)

One OCR token.  The source keeps five parallel arrays `texts`, `lefts`,
`tops`, `widths`, `heights`; coordinates are Python ints. -/

structure Tok where
  text : List Nat
  left : Int
  top : Int
  width : Int
  height : Int
deriving DecidableEq, Repr

/-- `texts[i]` etc. with the list-of-records view; out-of-range access never
happens on the paths the source exercises (all loops bound indices by `n`). -/
def tokAt (toks : List Tok) (i : Nat) : Tok := toks.getD i ⟨[], 0, 0, 0, 0⟩

def leftAt (toks : List Tok) (i : Nat) : Int := (tokAt toks i).left
def topAt (toks : List Tok) (i : Nat) : Int := (tokAt toks i).top
def widthAt (toks : List Tok) (i : Nat) : Int := (tokAt toks i).width
def heightAt (toks : List Tok) (i : Nat) : Int := (tokAt toks i).height

/-- `norm_tokens[i] = normalize_text(str(texts[i]))`. -/
def normTok (toks : List Tok) (i : Nat) : List Nat :=
  normalize_text (tokAt toks i).text

/-- ASCII digit (model of `str.isdigit` per character). -/
def isDigitCode (c : Nat) : Bool := decide (48 ≤ c) && decide (c ≤ 57)

/-- `''.join(c for c in s if c.isdigit())`. -/
def digitsOf (s : List Nat) : List Nat := s.filter isDigitCode

/-- Minimum of a list (only applied to non-empty index sets). -/
def minL : List Int → Int
  | [] => 0
  | [a] => a
  | a :: b :: rest => min a (minL (b :: rest))

/-- Maximum of a list (only applied to non-empty index sets). -/
def maxL : List Int → Int
  | [] => 0
  | [a] => a
  | a :: b :: rest => max a (maxL (b :: rest))

/-- Union rectangle of the tokens at `idxs`:
`x=min(lefts)`, `y=min(tops)`, `width=max(left+width)-x`,
`height=max(top+height)-y` (strategies 2, 3 and 4 all compute this). -/
def unionBox (toks : List Tok) (idxs : List Nat) : BBox :=
  let xmin := minL (idxs.map (leftAt toks))
  let ymin := minL (idxs.map (topAt toks))
  let xmax := maxL (idxs.map (fun i => leftAt toks i + widthAt toks i))
  let ymax := maxL (idxs.map (fun i => topAt toks i + heightAt toks i))
  ⟨xmin, ymin, xmax - xmin, ymax - ymin⟩

/-- The line-grouping loop shared by strategies 2 and 3: indices are split
into a new group whenever `abs(tops[idx] - current_y) > 20`, where
`current_y` is the top of the group's first token. -/
def lineGroupsGo (toks : List Tok) (cur : List Nat) (curY : Int) :
    List Nat → List (List Nat)
  | [] => [cur]
  | j :: rest =>
      if (topAt toks j - curY).natAbs > 20 then
        cur :: lineGroupsGo toks [j] (topAt toks j) rest
      else
        lineGroupsGo toks (cur ++ [j]) curY rest

def lineGroups (toks : List Tok) : List Nat → List (List Nat)
  | [] => []
  | i :: rest => lineGroupsGo toks [i] (topAt toks i) rest

/-- Within-line gap validation: adjacent tokens on one line may be at most
50px apart horizontally (`lefts[i2] - (lefts[i1] + widths[i1]) > 50` is
rejected). -/
def gapsOkLine (toks : List Tok) : List Nat → Bool
  | a :: b :: rest =>
      decide (leftAt toks b - (leftAt toks a + widthAt toks a) ≤ 50) &&
      gapsOkLine toks (b :: rest)
  | _ => true

def gapsOk (toks : List Tok) (lines : List (List Nat)) : Bool :=
  lines.all (gapsOkLine toks)

/-- Strategy 2's inter-line validation: between consecutive lines the top
coordinate must increase by strictly between 20 and 100px, and the second
line must not start more than 50px to the right of where the first ended
(`x_regression > 50` is rejected). -/
def lineBreaksOk (toks : List Tok) : List (List Nat) → Bool
  | l1 :: l2 :: rest =>
      let a := l1.getLast?.getD 0
      let b := l2.head?.getD 0
      decide (20 < topAt toks b - topAt toks a) &&
      decide (topAt toks b - topAt toks a < 100) &&
      decide (leftAt toks b - leftAt toks a ≤ 50) &&
      lineBreaksOk toks (l2 :: rest)
  | _ => true

/-- Strategy 1: first token whose (truthy) normalized text equals the
normalized PII value. -/
def strategy1 (normPii : List Nat) : List Tok → Option BBox
  | [] => none
  | t :: ts =>
      if normalize_text t.text ≠ [] ∧ normalize_text t.text = normPii then
        some ⟨t.left, t.top, t.width, t.height⟩
      else strategy1 normPii ts

/-- One window attempt of strategy 2 (`start` and `window_size`); every
`continue` of the source is a `none` here.  The `try/except` of the source
cannot fire: all indices are below `n` by construction. -/
def tryWindow2 (normPii : List Nat) (toks : List Tok) (start ws : Nat) :
    Option BBox :=
  if start + ws > toks.length then none
  else
    let idxs := List.range' start ws
    if (idxs.map (normTok toks)).flatten ≠ normPii then none
    else
      let lines := lineGroups toks idxs
      if ¬ gapsOk toks lines then none
      else if ¬ lineBreaksOk toks lines then none
      else
        let b := unionBox toks idxs
        if b.height > (lines.length : Int) * 80 then none
        else if b.width * b.height > 800 * (lines.length : Int) * 60 then none
        else some b

/-- Strategy 2: scan start positions in token order, window sizes
`2 .. min(10, len(norm_pii) + 2)` (the source's
`len(norm_pii.replace(' ', ''))` equals `len(norm_pii)`, spaces having been
stripped by normalization); skip starts whose normalized token is falsy.
The source's `break` at `end > n` only skips windows that are `none` here
anyway. -/
def strategy2 (normPii : List Nat) (toks : List Tok) : Option BBox :=
  let maxT := min 10 (normPii.length + 2)
  (List.range toks.length).findSome? (fun start =>
    if normTok toks start = [] then none
    else (List.range' 2 (maxT - 1)).findSome?
      (fun ws => tryWindow2 normPii toks start ws))

/-- One grouping attempt of strategy 3; unlike strategy 2 it validates only
within-line gaps and the union area — there is no inter-line progression
check and no height check. -/
def tryWindow3 (normPii : List Nat) (toks : List Tok) (start k : Nat) :
    Option BBox :=
  let idxs := List.range' start k
  if (idxs.map (normTok toks)).flatten ≠ normPii then none
  else
    let lines := lineGroups toks idxs
    if ¬ gapsOk toks lines then none
    else
      let b := unionBox toks idxs
      if b.width * b.height > 800 * (lines.length : Int) * 60 then none
      else some b

/-- Strategy 3 (the 12-digit identifier special case): for each start, group
counts run over Python's `range(1, min(6, n - start))`, i.e.
`1 .. min(6, n - start) - 1`. -/
def strategy3 (normPii : List Nat) (toks : List Tok) : Option BBox :=
  if normPii.length = 12 ∧ normPii.all isDigitCode then
    (List.range toks.length).findSome? (fun start =>
      (List.range' 1 (min 6 (toks.length - start) - 1)).findSome?
        (fun k => tryWindow3 normPii toks start k))
  else none

/-- Strategy 4's estimate of the number of lines spanned:
`sorted(set(tops))`, counting entries that are more than 20px below their
predecessor (the first entry always counts). -/
def countLines : List Int → Nat
  | [] => 0
  | [_] => 1
  | a :: b :: rest => (if b - a > 20 then 1 else 0) + countLines (b :: rest)

def numLinesEst (toks : List Tok) (idxs : List Nat) : Nat :=
  countLines (((idxs.map (topAt toks)).eraseDups).mergeSort (· ≤ ·))

/-- The body of strategy 4's token walk.  State: the accumulated digit
string and the indices contributing to it.  A token with digits that is not
a plausible continuation resets the state to that token alone and — as in
the source, whose reset branch ends in `continue` — skips the match check
for it. -/
def s4go (toks : List Tok) (piiDigits : List Nat) :
    List (Nat × Tok) → List Nat → List Nat → Option BBox
  | [], _, _ => none
  | (i, t) :: rest, cur, idxs =>
      let td := digitsOf t.text
      if td = [] then s4go toks piiDigits rest cur idxs
      else
        let ok := match idxs.getLast? with
          | none => true
          | some prev =>
              let yd := (t.top - topAt toks prev).natAbs
              let xd := t.left - (leftAt toks prev + widthAt toks prev)
              (decide (20 < yd) && decide (yd < 100) && decide (xd < 0)) ||
              (decide (yd < 15) && decide (xd < 100))
        if ok then
          let cur' := cur ++ td
          let idxs' := idxs ++ [i]
          if cur' = piiDigits ∧
              (unionBox toks idxs').width * (unionBox toks idxs').height ≤
                800 * (max (numLinesEst toks idxs') 1 : Int) * 60 then
            some (unionBox toks idxs')
          else if cur'.length > piiDigits.length then
            s4go toks piiDigits rest td [i]
          else s4go toks piiDigits rest cur' idxs'
        else s4go toks piiDigits rest td [i]

/-- Strategy 4 (fuzzy digit accumulation), for values with 8+ digits; note
it accumulates the digits of the *raw* PII value, not the normalized one. -/
def strategy4 (piiDigits : List Nat) (toks : List Tok) : Option BBox :=
  if piiDigits.length ≥ 8 then s4go toks piiDigits toks.enum [] []
  else none

/-- Strategy 5: substring of a single token, with the sub-rectangle
estimated by linear character-width interpolation:
`char_width = widths[i] / max(1, len(tok))` (a Python float division), then
`x_offset = int(tok_start_idx * char_width)` and
`pii_width = int(len(norm_pii) * char_width)`.  Modelled with exact
arithmetic: `int(k * (w / L))` is truncation toward zero of the rational
`k*w/L`, i.e. `Int.tdiv (k*w) L`.  A candidate is returned only if
`width * height < len(norm_pii) * 30 * 60`; otherwise the scan continues
with the next token. -/
def strategy5 (normPii : List Nat) : List Tok → Option BBox
  | [] => none
  | t :: ts =>
      let tok := normalize_text t.text
      if tok ≠ [] ∧ (firstOccur tok normPii).isSome ∧ normPii.length > 6 then
        let ts0 := (firstOccur tok normPii).getD 0
        let L : Int := (max 1 tok.length : Nat)
        let xOff := Int.tdiv ((ts0 : Int) * t.width) L
        let pw := Int.tdiv ((normPii.length : Int) * t.width) L
        let b : BBox := ⟨t.left + xOff, t.top, pw, t.height⟩
        if b.width * b.height < (normPii.length : Int) * 30 * 60 then some b
        else strategy5 normPii ts
      else strategy5 normPii ts

/-- `find_precise_bbox_for_pii`: guard, then the five-strategy cascade,
first success wins. -/
def find_precise_bbox_for_pii (pii : List Nat) (toks : List Tok) :
    Option BBox :=
  let normPii := normalize_text pii
  if normPii = [] ∨ toks.length = 0 then none
  else
    (strategy1 normPii toks) <|>
    (strategy2 normPii toks) <|>
    (strategy3 normPii toks) <|>
    (strategy4 (digitsOf pii) toks) <|>
    (strategy5 normPii toks)

/-- The post-cascade global validation of `search_pii` (lines 496-515):
`area > len(pii minus spaces and hyphens) * 20 * 40 * 10` drops the box and
leaves the value unlocated — the cascade is *not* re-entered. -/
def stripLen (pii : List Nat) : Nat :=
  (pii.filter (fun c => !(c == 32 || c == 45))).length

def locate_pii (pii : List Nat) (toks : List Tok) : Option BBox :=
  match find_precise_bbox_for_pii pii toks with
  | none => none
  | some b =>
      if b.width * b.height > (stripLen pii : Int) * 20 * 40 * 10 then none
      else some b

/-! ### Helper lemmas about the resolver's building blocks -/

theorem firstOccur_self (l : List Nat) : firstOccur l l = some 0 := by
  unfold firstOccur
  rw [List.range_succ_eq_map]
  exact List.find?_cons_of_pos _ (by
    simp only [List.drop_zero]
    exact List.isPrefixOf_iff_prefix.mpr (List.prefix_refl l))

theorem ne_of_firstOccur_none {hay needle : List Nat}
    (h : firstOccur hay needle = none) : needle ≠ hay := by
  intro heq
  rw [heq, firstOccur_self] at h
  exact absurd h (by simp)

theorem tokAt_mem {toks : List Tok} {i : Nat} (h : i < toks.length) :
    tokAt toks i ∈ toks := by
  unfold tokAt
  rw [List.getD_eq_getElem toks _ h]
  exact List.getElem_mem h

theorem minL_mem : ∀ (l : List Int), l ≠ [] → minL l ∈ l
  | [a], _ => List.mem_singleton.mpr rfl
  | a :: b :: rest, _ => by
      rcases le_total a (minL (b :: rest)) with h | h
      · simp only [minL, min_eq_left h]
        exact List.mem_cons_self _ _
      · simp only [minL, min_eq_right h]
        exact List.mem_cons_of_mem _ (minL_mem (b :: rest) (by simp))

theorem le_maxL : ∀ (l : List Int) (a : Int), a ∈ l → a ≤ maxL l
  | [x], a, ha => by
      rw [List.mem_singleton.mp ha]; exact le_of_eq rfl
  | x :: y :: rest, a, ha => by
      rcases List.mem_cons.mp ha with rfl | htail
      · simp only [maxL]; exact le_max_left _ _
      · simp only [maxL]
        exact le_trans (le_maxL (y :: rest) a htail) (le_max_right _ _)

theorem minL_le : ∀ (l : List Int) (a : Int), a ∈ l → minL l ≤ a
  | [x], a, ha => by
      rw [List.mem_singleton.mp ha]; exact le_of_eq rfl
  | x :: y :: rest, a, ha => by
      rcases List.mem_cons.mp ha with rfl | htail
      · simp only [minL]; exact min_le_left _ _
      · simp only [minL]
        exact le_trans (min_le_right _ _) (minL_le (y :: rest) a htail)

/-- The union rectangle over a non-empty set of tokens with positive
dimensions has positive dimensions. -/
theorem unionBox_pos (toks : List Tok) (idxs : List Nat) (hne : idxs ≠ [])
    (hpos : ∀ i ∈ idxs, 0 < widthAt toks i ∧ 0 < heightAt toks i) :
    0 < (unionBox toks idxs).width ∧ 0 < (unionBox toks idxs).height := by
  constructor
  · have hmem := minL_mem (idxs.map (leftAt toks)) (by simpa using hne)
    obtain ⟨j, hj, hjeq⟩ := List.mem_map.mp hmem
    have hle : leftAt toks j + widthAt toks j ≤
        maxL (idxs.map (fun i => leftAt toks i + widthAt toks i)) :=
      le_maxL _ _ (List.mem_map.mpr ⟨j, hj, rfl⟩)
    have hw := (hpos j hj).1
    simp only [unionBox, ← hjeq]
    omega
  · have hmem := minL_mem (idxs.map (topAt toks)) (by simpa using hne)
    obtain ⟨j, hj, hjeq⟩ := List.mem_map.mp hmem
    have hle : topAt toks j + heightAt toks j ≤
        maxL (idxs.map (fun i => topAt toks i + heightAt toks i)) :=
      le_maxL _ _ (List.mem_map.mpr ⟨j, hj, rfl⟩)
    have hh := (hpos j hj).2
    simp only [unionBox, ← hjeq]
    omega

/-! ### C6: single-token exact match -/

/-- Strategy 1 returns the rectangle of the first token whose (non-empty)
normalized text equals the normalized value. -/
theorem strategy1_first (normPii : List Nat) :
    ∀ (toks : List Tok) (i : Nat), i < toks.length →
      normPii ≠ [] →
      normTok toks i = normPii →
      (∀ j < i, normTok toks j ≠ normPii) →
      strategy1 normPii toks =
        some ⟨leftAt toks i, topAt toks i, widthAt toks i, heightAt toks i⟩
  | [], i, hi, _, _, _ => absurd hi (by simp)
  | t :: ts, 0, _, hne, hmatch, _ => by
      have ht : normalize_text t.text = normPii := hmatch
      unfold strategy1
      rw [if_pos ⟨ht ▸ hne, ht⟩]
      rfl
  | t :: ts, i + 1, hi, hne, hmatch, hfirst => by
      have ht : normalize_text t.text ≠ normPii := hfirst 0 (Nat.succ_pos i)
      unfold strategy1
      rw [if_neg (by
        rintro ⟨-, habs⟩
        exact ht habs)]
      exact strategy1_first normPii ts i (by simpa using hi) hne hmatch
        (fun j hj => hfirst (j + 1) (by omega))

/-- Amended C6: when the normalized PII value is non-empty and some token's
normalized text equals it, resolution returns the rectangle of the *first*
such token (the cascade's strategy 1 short-circuits everything else). -/
theorem single_token_exact (pii : List Nat) (toks : List Tok) (i : Nat)
    (hi : i < toks.length)
    (hne : normalize_text pii ≠ [])
    (hmatch : normTok toks i = normalize_text pii)
    (hfirst : ∀ j < i, normTok toks j ≠ normalize_text pii) :
    find_precise_bbox_for_pii pii toks =
      some ⟨leftAt toks i, topAt toks i, widthAt toks i, heightAt toks i⟩ := by
  unfold find_precise_bbox_for_pii
  rw [if_neg (by
    rintro (h | h)
    · exact hne h
    · omega)]
  rw [strategy1_first (normalize_text pii) toks i hi hne hmatch hfirst]
  rfl

/-- Witness for `single_token_exact`: the spec's own instance — one token
`"9999"` at rect `(10,10,40,20)` resolving value `"9999"`. -/
theorem single_token_exact_witness :
    find_precise_bbox_for_pii (codes "9999")
      [⟨codes "9999", 10, 10, 40, 20⟩] = some ⟨10, 10, 40, 20⟩ :=
  single_token_exact (codes "9999") [⟨codes "9999", 10, 10, 40, 20⟩] 0
    (by decide) (by decide) (by decide)
    (fun j hj => absurd hj (by omega))

/-- Counterexample to C6 as universally stated: for the value `"+"` and the
single token `"-"`, the token's normalized text equals the normalized value
(both are empty), yet resolution returns `none`, not the token's
rectangle. -/
theorem single_token_exact_cex :
    find_precise_bbox_for_pii (codes "+") [⟨codes "-", 1, 2, 3, 4⟩] = none ∧
    normTok [⟨codes "-", 1, 2, 3, 4⟩] 0 = normalize_text (codes "+") := by
  decide

/-! ### C5: dimensions of returned regions -/

theorem option_orElse_cases {α : Type} {a b : Option α} {x : α}
    (h : (a <|> b) = some x) : a = some x ∨ b = some x := by
  cases a with
  | none => right; simpa using h
  | some v => left; simpa using h

theorem strategy1_pos {normPii : List Nat} :
    ∀ {toks : List Tok}, (∀ t ∈ toks, 0 < t.width ∧ 0 < t.height) →
      ∀ {b : BBox}, strategy1 normPii toks = some b →
        0 < b.width ∧ 0 < b.height := by
  intro toks
  induction toks with
  | nil => intro _ b h; exact absurd h (by simp [strategy1])
  | cons t ts ih =>
      intro hpos b h
      unfold strategy1 at h
      split at h
      · obtain rfl := Option.some.inj h
        exact (hpos t (List.mem_cons_self _ _))
      · exact ih (fun u hu => hpos u (List.mem_cons_of_mem _ hu)) h

theorem tryWindow2_some {normPii : List Nat} {toks : List Tok}
    {start ws : Nat} {b : BBox}
    (h : tryWindow2 normPii toks start ws = some b) :
    start + ws ≤ toks.length ∧ b = unionBox toks (List.range' start ws) := by
  simp only [tryWindow2] at h
  split at h
  · exact absurd h (by simp)
  · rename_i hle
    refine ⟨by omega, ?_⟩
    split at h
    · exact absurd h (by simp)
    · split at h
      · exact absurd h (by simp)
      · split at h
        · exact absurd h (by simp)
        · split at h
          · exact absurd h (by simp)
          · split at h
            · exact absurd h (by simp)
            · exact (Option.some.inj h).symm

theorem strategy2_pos {normPii : List Nat} {toks : List Tok}
    (hpos : ∀ t ∈ toks, 0 < t.width ∧ 0 < t.height) {b : BBox}
    (h : strategy2 normPii toks = some b) : 0 < b.width ∧ 0 < b.height := by
  unfold strategy2 at h
  obtain ⟨start, hstart, h2⟩ := List.exists_of_findSome?_eq_some h
  split at h2
  · exact absurd h2 (by simp)
  · obtain ⟨ws, hws, h3⟩ := List.exists_of_findSome?_eq_some h2
    obtain ⟨j, hj, rfl⟩ := List.mem_range'.mp hws
    obtain ⟨hle, rfl⟩ := tryWindow2_some h3
    apply unionBox_pos
    · rw [ne_eq, List.range'_eq_nil]
      omega
    · intro i hi
      obtain ⟨j', hj', rfl⟩ := List.mem_range'.mp hi
      have hilt : start + 1 * j' < toks.length := by omega
      exact hpos _ (tokAt_mem hilt)

theorem tryWindow3_some {normPii : List Nat} {toks : List Tok}
    {start k : Nat} {b : BBox}
    (h : tryWindow3 normPii toks start k = some b) :
    b = unionBox toks (List.range' start k) := by
  simp only [tryWindow3] at h
  split at h
  · exact absurd h (by simp)
  · split at h
    · exact absurd h (by simp)
    · split at h
      · exact absurd h (by simp)
      · exact (Option.some.inj h).symm

theorem strategy3_pos {normPii : List Nat} {toks : List Tok}
    (hpos : ∀ t ∈ toks, 0 < t.width ∧ 0 < t.height) {b : BBox}
    (h : strategy3 normPii toks = some b) : 0 < b.width ∧ 0 < b.height := by
  unfold strategy3 at h
  split at h
  · obtain ⟨start, hstart, h2⟩ := List.exists_of_findSome?_eq_some h
    have hstartlt : start < toks.length := List.mem_range.mp hstart
    obtain ⟨k, hk, h3⟩ := List.exists_of_findSome?_eq_some h2
    obtain ⟨j, hj, rfl⟩ := List.mem_range'.mp hk
    obtain rfl := tryWindow3_some h3
    apply unionBox_pos
    · rw [ne_eq, List.range'_eq_nil]
      omega
    · intro i hi
      obtain ⟨j', hj', rfl⟩ := List.mem_range'.mp hi
      have hilt : start + 1 * j' < toks.length := by omega
      exact hpos _ (tokAt_mem hilt)
  · exact absurd h (by simp)

theorem s4go_pos (toks : List Tok) (piiDigits : List Nat)
    (hpos : ∀ t ∈ toks, 0 < t.width ∧ 0 < t.height) :
    ∀ (l : List (Nat × Tok)) (cur idxs : List Nat),
      (∀ p ∈ l, p.1 < toks.length) →
      (∀ j ∈ idxs, j < toks.length) →
      ∀ b, s4go toks piiDigits l cur idxs = some b →
        0 < b.width ∧ 0 < b.height
  | [], cur, idxs, _, _, b, h => absurd h (by simp [s4go])
  | (i, t) :: rest, cur, idxs, hl, hidxs, b, h => by
      have hi : i < toks.length := hl (i, t) (List.mem_cons_self _ _)
      have hrest : ∀ p ∈ rest, p.1 < toks.length :=
        fun p hp => hl p (List.mem_cons_of_mem _ hp)
      have hsingle : ∀ j ∈ [i], j < toks.length := by
        intro j hj; rw [List.mem_singleton.mp hj]; exact hi
      have happ : ∀ j ∈ idxs ++ [i], j < toks.length := by
        intro j hj
        rcases List.mem_append.mp hj with hj | hj
        · exact hidxs j hj
        · rw [List.mem_singleton.mp hj]; exact hi
      simp only [s4go] at h
      split at h
      · exact s4go_pos toks piiDigits hpos rest cur idxs hrest hidxs b h
      · split at h
        · split at h
          · obtain rfl := Option.some.inj h
            apply unionBox_pos toks (idxs ++ [i]) (by simp)
            intro j hj
            exact hpos _ (tokAt_mem (happ j hj))
          · split at h
            · exact s4go_pos toks piiDigits hpos rest _ _ hrest hsingle b h
            · exact s4go_pos toks piiDigits hpos rest _ _ hrest happ b h
        · exact s4go_pos toks piiDigits hpos rest _ _ hrest hsingle b h

theorem strategy4_pos {piiDigits : List Nat} {toks : List Tok}
    (hpos : ∀ t ∈ toks, 0 < t.width ∧ 0 < t.height) {b : BBox}
    (h : strategy4 piiDigits toks = some b) : 0 < b.width ∧ 0 < b.height := by
  unfold strategy4 at h
  split at h
  · refine s4go_pos toks piiDigits hpos toks.enum [] [] ?_ (by simp) b h
    rintro ⟨i, a⟩ hp
    exact (List.getElem?_eq_some.mp (List.mk_mem_enum_iff_getElem?.mp hp)).1
  · exact absurd h (by simp)

theorem strategy5_height (normPii : List Nat) :
    ∀ (toks : List Tok), (∀ t ∈ toks, 0 < t.height) →
      ∀ b, strategy5 normPii toks = some b → 0 < b.height
  | [], _, b, h => absurd h (by simp [strategy5])
  | t :: ts, hpos, b, h => by
      have htail : ∀ u ∈ ts, 0 < u.height :=
        fun u hu => hpos u (List.mem_cons_of_mem _ hu)
      simp only [strategy5] at h
      split at h
      · split at h
        · obtain rfl := Option.some.inj h
          exact hpos t (List.mem_cons_self _ _)
        · exact strategy5_height normPii ts htail b h
      · exact strategy5_height normPii ts htail b h

/-- Amended C5: if every token has positive width and height, then any
region produced by strategies 1-4 has positive width and height, and the
full resolver always returns a region of positive *height*; positive width
can fail only through strategy 5's character-width interpolation, whose
truncating division may produce a zero-width region (see the
counterexample). -/
theorem region_dims_positive (pii : List Nat) (toks : List Tok)
    (hpos : ∀ t ∈ toks, 0 < t.width ∧ 0 < t.height) :
    (∀ b, (strategy1 (normalize_text pii) toks <|>
           strategy2 (normalize_text pii) toks <|>
           strategy3 (normalize_text pii) toks <|>
           strategy4 (digitsOf pii) toks) = some b →
       0 < b.width ∧ 0 < b.height) ∧
    (∀ b, find_precise_bbox_for_pii pii toks = some b → 0 < b.height) := by
  have h14 : ∀ b, (strategy1 (normalize_text pii) toks <|>
           strategy2 (normalize_text pii) toks <|>
           strategy3 (normalize_text pii) toks <|>
           strategy4 (digitsOf pii) toks) = some b →
       0 < b.width ∧ 0 < b.height := by
    intro b h
    rcases option_orElse_cases h with h | h
    · exact strategy1_pos hpos h
    rcases option_orElse_cases h with h | h
    · exact strategy2_pos hpos h
    rcases option_orElse_cases h with h | h
    · exact strategy3_pos hpos h
    · exact strategy4_pos hpos h
  refine ⟨h14, ?_⟩
  intro b h
  simp only [find_precise_bbox_for_pii] at h
  split at h
  · exact absurd h (by simp)
  · rcases option_orElse_cases h with h | h
    · exact (strategy1_pos hpos h).2
    rcases option_orElse_cases h with h | h
    · exact (strategy2_pos hpos h).2
    rcases option_orElse_cases h with h | h
    · exact (strategy3_pos hpos h).2
    rcases option_orElse_cases h with h | h
    · exact (strategy4_pos hpos h).2
    · exact strategy5_height (normalize_text pii) toks
        (fun u hu => (hpos u hu).2) b h

/-- Witness for `region_dims_positive` at the single-token `"9999"`
instance. -/
theorem region_dims_positive_witness :
    (∀ b, (strategy1 (normalize_text (codes "9999"))
             [⟨codes "9999", 10, 10, 40, 20⟩] <|>
           strategy2 (normalize_text (codes "9999"))
             [⟨codes "9999", 10, 10, 40, 20⟩] <|>
           strategy3 (normalize_text (codes "9999"))
             [⟨codes "9999", 10, 10, 40, 20⟩] <|>
           strategy4 (digitsOf (codes "9999"))
             [⟨codes "9999", 10, 10, 40, 20⟩]) = some b →
       0 < b.width ∧ 0 < b.height) ∧
    (∀ b, find_precise_bbox_for_pii (codes "9999")
        [⟨codes "9999", 10, 10, 40, 20⟩] = some b → 0 < b.height) :=
  region_dims_positive (codes "9999") [⟨codes "9999", 10, 10, 40, 20⟩]
    (by decide)

/-- Counterexample to C5 as stated: all tokens have positive dimensions,
yet the resolver (through strategy 5's interpolation,
`int(7 * (1 / 16)) = 0`) returns a region of width 0. -/
theorem region_dims_positive_cex :
    find_precise_bbox_for_pii (codes "abcdefg")
      [⟨codes "xxabcdefgzzzzzzz", 3, 5, 1, 20⟩] = some ⟨3, 5, 0, 20⟩ ∧
    ¬ (0 < (3 : Int) ∧ 0 < (5 : Int) ∧ 0 < (0 : Int) ∧ 0 < (20 : Int)) := by
  constructor
  · decide
  · decide

/-! ### C2: the global area bound does not re-enter the cascade -/

/-- Amended C2: `search_pii`'s global area validation runs once, *after* the
cascade has returned its first successful candidate; a candidate exceeding the
bound causes the value to be left without a location, even when a later
strategy of the cascade holds an acceptable region — there is no
fall-through at the level of the global bound (only the strategy-internal
size checks fall through, inside `find_precise_bbox_for_pii`). -/
theorem global_area_rejection (pii : List Nat) (toks : List Tok) (b r : BBox)
    (hfind : find_precise_bbox_for_pii pii toks = some b)
    (harea : b.width * b.height > (stripLen pii : Int) * 20 * 40 * 10)
    (hlater : strategy5 (normalize_text pii) toks = some r) :
    locate_pii pii toks = none := by
  unfold locate_pii
  rw [hfind]
  simp only [if_pos harea]

/-- Witness for `global_area_rejection`: an oversized exact-token match for
`"99990000"` is dropped after the cascade even though strategy 5 holds the
small region `{104,300,34,20}` for the same value. -/
theorem global_area_rejection_witness :
    locate_pii (codes "99990000")
      [⟨codes "99990000", 0, 0, 2000, 200⟩,
       ⟨codes "x99990000xxxxxx", 100, 300, 64, 20⟩] = none :=
  global_area_rejection (codes "99990000")
    [⟨codes "99990000", 0, 0, 2000, 200⟩,
     ⟨codes "x99990000xxxxxx", 100, 300, 64, 20⟩]
    ⟨0, 0, 2000, 200⟩ ⟨104, 300, 34, 20⟩
    (by decide) (by decide) (by decide)

/-- Counterexample to C2 as stated: for value `"99990000"` over these two
tokens, the cascade's first candidate (the full 2000x200 token box) exceeds
the global bound `8*20*40*10 = 64000`; the claim says resolution falls
through and may return a later strategy's region — strategy 5 indeed holds
`{104,300,34,20}` — but the code instead leaves the value unresolved. -/
theorem global_area_rejection_cex :
    find_precise_bbox_for_pii (codes "99990000")
      [⟨codes "99990000", 0, 0, 2000, 200⟩,
       ⟨codes "x99990000xxxxxx", 100, 300, 64, 20⟩] =
      some ⟨0, 0, 2000, 200⟩ ∧
    (2000 * 200 : Int) > (stripLen (codes "99990000") : Int) * 20 * 40 * 10 ∧
    strategy5 (normalize_text (codes "99990000"))
      [⟨codes "99990000", 0, 0, 2000, 200⟩,
       ⟨codes "x99990000xxxxxx", 100, 300, 64, 20⟩] =
      some ⟨104, 300, 34, 20⟩ ∧
    locate_pii (codes "99990000")
      [⟨codes "99990000", 0, 0, 2000, 200⟩,
       ⟨codes "x99990000xxxxxx", 100, 300, 64, 20⟩] = none := by
  refine ⟨by decide, by decide, by decide, by decide⟩

/-! ### C1: rejection of implausible 150px line gaps

For a *two-token* index the cascade does return `none` (amended theorem
below).  But with any further token present, an exactly-12-digit value can
be resolved by strategy 3 despite the 150px gap, because strategy 3 — unlike
strategy 2 — validates only within-line horizontal gaps and the union area,
not the inter-line vertical progression (counterexample below). -/

theorem strategy1_two_none (np : List Nat) (t0 t1 : Tok)
    (h0 : ¬ (normalize_text t0.text ≠ [] ∧ normalize_text t0.text = np))
    (h1 : ¬ (normalize_text t1.text ≠ [] ∧ normalize_text t1.text = np)) :
    strategy1 np [t0, t1] = none := by
  simp only [strategy1, if_neg h0, if_neg h1]

theorem tryWindow2_two_none (np : List Nat) (t0 t1 : Tok)
    (hgap : (t1.top - t0.top).natAbs > 20)
    (hnw : ¬ (20 < t1.top - t0.top ∧ t1.top - t0.top < 100)) :
    tryWindow2 np [t0, t1] 0 2 = none := by
  have hr2 : List.range' 0 2 = [0, 1] := rfl
  simp only [tryWindow2, hr2, List.length_cons, List.length_nil]
  rw [if_neg (by omega)]
  split
  · rfl
  · have hlines : lineGroups [t0, t1] [0, 1] = [[0], [1]] := by
      show (if (t1.top - t0.top).natAbs > 20 then
          [0] :: lineGroupsGo [t0, t1] [1] (topAt [t0, t1] 1) []
        else lineGroupsGo [t0, t1] ([0] ++ [1]) (topAt [t0, t1] 0) []) =
        [[0], [1]]
      rw [if_pos hgap]
      rfl
    rw [hlines]
    have hgaps : gapsOk [t0, t1] [[0], [1]] = true := rfl
    have hand : (decide (20 < t1.top - t0.top) &&
        decide (t1.top - t0.top < 100)) = false := by
      by_cases h : 20 < t1.top - t0.top
      · have : ¬ (t1.top - t0.top < 100) := fun h2 => hnw ⟨h, h2⟩
        simp [this]
      · simp [h]
    have hbreaks : lineBreaksOk [t0, t1] [[0], [1]] = false := by
      show (decide (20 < t1.top - t0.top) && decide (t1.top - t0.top < 100) &&
          decide (t1.left - t0.left ≤ 50) &&
          lineBreaksOk [t0, t1] [[1]]) = false
      rw [hand]
      simp
    rw [hgaps, hbreaks]
    simp

theorem strategy2_two_none (np : List Nat) (t0 t1 : Tok)
    (hgap : (t1.top - t0.top).natAbs > 20)
    (hnw : ¬ (20 < t1.top - t0.top ∧ t1.top - t0.top < 100)) :
    strategy2 np [t0, t1] = none := by
  have hoob : ∀ start ws : Nat, start + ws > 2 →
      tryWindow2 np [t0, t1] start ws = none := by
    intro start ws h
    simp only [tryWindow2, List.length_cons, List.length_nil]
    rw [if_pos (by omega)]
  unfold strategy2
  rw [List.findSome?_eq_none_iff]
  intro start hstart
  have hlt : start < 2 := by simpa using List.mem_range.mp hstart
  split
  · rfl
  · rw [List.findSome?_eq_none_iff]
    intro ws hws
    obtain ⟨j, hj, rfl⟩ := List.mem_range'.mp hws
    rcases Nat.lt_or_ge start 1 with hs0 | hs1
    · have hz : start = 0 := by omega
      subst hz
      rcases Nat.eq_zero_or_pos j with rfl | hjpos
      · simpa using tryWindow2_two_none np t0 t1 hgap hnw
      · exact hoob 0 _ (by omega)
    · exact hoob start _ (by omega)

theorem strategy3_two_none (np : List Nat) (t0 t1 : Tok)
    (h0 : normalize_text t0.text ≠ np) :
    strategy3 np [t0, t1] = none := by
  unfold strategy3
  split
  · rw [List.findSome?_eq_none_iff]
    intro start hstart
    have hlt : start < 2 := by simpa using List.mem_range.mp hstart
    rw [List.findSome?_eq_none_iff]
    intro k hk
    obtain ⟨j, hj, rfl⟩ := List.mem_range'.mp hk
    simp only [List.length_cons, List.length_nil] at hj
    have hstart0 : start = 0 := by
      rcases Nat.lt_or_ge start 1 with h | h
      · omega
      · exfalso
        have h1 : start = 1 := by omega
        subst h1
        omega
    subst hstart0
    have hk1 : 1 + 1 * j = 1 := by omega
    rw [hk1]
    have hfl : ((List.range' 0 1).map (normTok [t0, t1])).flatten =
        normalize_text t0.text := by
      simp [normTok, tokAt]
    simp only [tryWindow3]
    rw [if_pos (by rw [hfl]; exact h0)]
  · rfl

theorem strategy4_two_none (pd : List Nat) (t0 t1 : Tok)
    (h150 : (t1.top - t0.top).natAbs = 150)
    (hd0 : digitsOf t0.text ≠ pd)
    (hd1 : digitsOf t1.text ≠ pd) :
    strategy4 pd [t0, t1] = none := by
  unfold strategy4
  split
  · show s4go [t0, t1] pd [(0, t0), (1, t1)] [] [] = none
    by_cases h0 : digitsOf t0.text = []
    · simp [s4go, h0, hd1]
    · simp [s4go, h0, hd0, hd1, topAt, tokAt, leftAt, widthAt, h150]
  · rfl

theorem strategy5_two_none (np : List Nat) (t0 t1 : Tok)
    (hno0 : firstOccur (normalize_text t0.text) np = none)
    (hno1 : firstOccur (normalize_text t1.text) np = none) :
    strategy5 np [t0, t1] = none := by
  have c0 : ¬ (normalize_text t0.text ≠ [] ∧
      (firstOccur (normalize_text t0.text) np).isSome = true ∧
      np.length > 6) := by
    rintro ⟨-, h, -⟩
    rw [hno0] at h
    simp at h
  have c1 : ¬ (normalize_text t1.text ≠ [] ∧
      (firstOccur (normalize_text t1.text) np).isSome = true ∧
      np.length > 6) := by
    rintro ⟨-, h, -⟩
    rw [hno1] at h
    simp at h
  simp only [strategy5, if_neg c0, if_neg c1]

/-- Amended C1: when the token index consists of exactly the two tokens
whose concatenated normalized texts form the value, with top coordinates
150px apart, resolution returns `none` for *every* value — including
12-digit ones, for which strategy 3's `range(1, min(6, n - start))` bound
cannot even form a 2-token group when `n = 2`.  The further hypotheses rule
out the unrelated single-token paths (the value occurring inside one token,
or one token's digit string already equalling the value's). -/
theorem line_wrap_two_tokens_rejected (pii : List Nat) (t0 t1 : Tok)
    (h150 : (t1.top - t0.top).natAbs = 150)
    (hcat : normalize_text t0.text ++ normalize_text t1.text =
      normalize_text pii)
    (hno0 : firstOccur (normalize_text t0.text) (normalize_text pii) = none)
    (hno1 : firstOccur (normalize_text t1.text) (normalize_text pii) = none)
    (hd0 : digitsOf t0.text ≠ digitsOf pii)
    (hd1 : digitsOf t1.text ≠ digitsOf pii) :
    find_precise_bbox_for_pii pii [t0, t1] = none := by
  have hgap : (t1.top - t0.top).natAbs > 20 := by omega
  have hnw : ¬ (20 < t1.top - t0.top ∧ t1.top - t0.top < 100) := by omega
  have hs1 := strategy1_two_none (normalize_text pii) t0 t1
    (fun h => (ne_of_firstOccur_none hno0) h.2.symm)
    (fun h => (ne_of_firstOccur_none hno1) h.2.symm)
  have hs2 := strategy2_two_none (normalize_text pii) t0 t1 hgap hnw
  have hs3 := strategy3_two_none (normalize_text pii) t0 t1
    (fun h => (ne_of_firstOccur_none hno0) h.symm)
  have hs4 := strategy4_two_none (digitsOf pii) t0 t1 h150 hd0 hd1
  have hs5 := strategy5_two_none (normalize_text pii) t0 t1 hno0 hno1
  simp only [find_precise_bbox_for_pii, hs1, hs2, hs3, hs4, hs5,
    Option.none_orElse]
  rw [ite_self]

/-- Witness for `line_wrap_two_tokens_rejected`: the spec's own scenario —
`"999900"` and `"001111"` 150px apart, concatenating to the 12-digit value
`"999900001111"` — resolves to `none`. -/
theorem line_wrap_two_tokens_rejected_witness :
    find_precise_bbox_for_pii (codes "999900001111")
      [⟨codes "999900", 10, 10, 40, 20⟩,
       ⟨codes "001111", 10, 160, 40, 20⟩] = none :=
  line_wrap_two_tokens_rejected (codes "999900001111")
    ⟨codes "999900", 10, 10, 40, 20⟩ ⟨codes "001111", 10, 160, 40, 20⟩
    (by decide) (by decide) (by decide) (by decide) (by decide) (by decide)

/-- Counterexample to C1 as stated: add one unrelated far-away token `"x"`
and the 12-digit value `"999900001111"` — whose only candidate match is
still the pair of tokens 150px apart — now resolves to the region
`{10,10,40,170}` through strategy 3, which skips the line-wrap
validation. -/
theorem line_wrap_rejection_cex :
    find_precise_bbox_for_pii (codes "999900001111")
      [⟨codes "999900", 10, 10, 40, 20⟩, ⟨codes "001111", 10, 160, 40, 20⟩,
       ⟨codes "x", 500, 500, 10, 10⟩] = some ⟨10, 10, 40, 170⟩ ∧
    (topAt [⟨codes "999900", 10, 10, 40, 20⟩,
        ⟨codes "001111", 10, 160, 40, 20⟩, ⟨codes "x", 500, 500, 10, 10⟩] 1 -
      topAt [⟨codes "999900", 10, 10, 40, 20⟩,
        ⟨codes "001111", 10, 160, 40, 20⟩,
        ⟨codes "x", 500, 500, 10, 10⟩] 0).natAbs = 150 ∧
    normTok [⟨codes "999900", 10, 10, 40, 20⟩,
        ⟨codes "001111", 10, 160, 40, 20⟩, ⟨codes "x", 500, 500, 10, 10⟩] 0 ++
      normTok [⟨codes "999900", 10, 10, 40, 20⟩,
        ⟨codes "001111", 10, 160, 40, 20⟩, ⟨codes "x", 500, 500, 10, 10⟩] 1 =
      normalize_text (codes "999900001111") ∧
    (normalize_text (codes "999900001111")).length = 12 ∧
    (normalize_text (codes "999900001111")).all isDigitCode = true := by
  refine ⟨by decide, by decide, by decide, by decide, by decide⟩

end PIIRedact
